import Mathlib

/-!
Verification of the core logic of a local text-to-SQL pipeline.

The development shallowly embeds, faithfully to the Python source:
  * `core/utils.py`   — `sanitize_identifier`, `clean_sql`;
  * `agents/critic.py` — `CriticAgent.execute_with_retry` (the bounded
    self-correcting retry loop), with the execution engine and the
    text-generation capability as oracles;
  * `agents/resolver.py` — `SemanticResolver.enrich` (keyword extraction and
    best-match-per-(table, column) scoring), with `thefuzz.fuzz.partial_ratio`
    and the sentence-embedding similarity as oracles;
  * `core/orchestrator.py` — `Orchestrator._is_database_question` and the
    relevance-gate branch of `Orchestrator.run`.

Strings are modelled as `List Char`; Python `str` methods used by the code
(`strip`, `lower`, `upper`, `splitlines`, `split("_")`, `re` tokenization)
are modelled for the ASCII range, which is the range the code manipulates.
-/

set_option maxHeartbeats 1000000

/-! ## ASCII string primitives (models of the Python `str` methods used) -/

/-- ASCII whitespace stripped by Python `str.strip()`. -/
def isPySpace (c : Char) : Bool :=
  c = ' ' || c = '\t' || c = '\n' || c = '\r' || c = Char.ofNat 11 || c = Char.ofNat 12

/-- Model of Python `str.strip()`: drop whitespace from both ends. -/
def pyStrip (l : List Char) : List Char :=
  ((l.dropWhile isPySpace).reverse.dropWhile isPySpace).reverse

/-- The lower-case image of an ASCII letter; identity elsewhere
(ASCII model of Python `str.lower` applied character-wise). -/
def asciiLower (c : Char) : Char :=
  if 65 ≤ c.toNat && c.toNat ≤ 90 then Char.ofNat (c.toNat + 32) else c

/-- The upper-case image of an ASCII letter; identity elsewhere
(ASCII model of Python `str.upper` applied character-wise). -/
def asciiUpper (c : Char) : Char :=
  if 97 ≤ c.toNat && c.toNat ≤ 122 then Char.ofNat (c.toNat - 32) else c

/-- Characters kept by the regex `[^a-zA-Z0-9_]` removal in
`sanitize_identifier`, equally the `\w` class of the tokenizing regexes. -/
def isWordChar (c : Char) : Bool :=
  (97 ≤ c.toNat && c.toNat ≤ 122) || (65 ≤ c.toNat && c.toNat ≤ 90) ||
    (48 ≤ c.toNat && c.toNat ≤ 57) || c.toNat = 95

/-- Characters accepted by `re.match(r'^[a-zA-Z_]', ...)`. -/
def isLeadChar (c : Char) : Bool :=
  (97 ≤ c.toNat && c.toNat ≤ 122) || (65 ≤ c.toNat && c.toNat ≤ 90) || c.toNat = 95

/-- Python line-break characters other than `'\r'` (which pairs with `'\n'`). -/
def isLineBreak (c : Char) : Bool :=
  c = '\n' || c.toNat = 11 || c.toNat = 12 || c.toNat = 28 || c.toNat = 29 ||
    c.toNat = 30 || c.toNat = 133 || c.toNat = 8232 || c.toNat = 8233

/-- Worker for `pySplitlines`; `cur` holds the current line reversed. -/
def pySplitlinesAux : List Char → List Char → List (List Char)
  | cur, [] => if cur = [] then [] else [cur.reverse]
  | cur, '\r' :: '\n' :: rest => cur.reverse :: pySplitlinesAux [] rest
  | cur, '\r' :: rest => cur.reverse :: pySplitlinesAux [] rest
  | cur, c :: rest =>
    if isLineBreak c then cur.reverse :: pySplitlinesAux [] rest
    else pySplitlinesAux (c :: cur) rest

/-- Model of Python `str.splitlines()`. -/
def pySplitlines (l : List Char) : List (List Char) :=
  pySplitlinesAux [] l

/-- Worker for `tokenize`; `cur` holds the current token reversed. -/
def tokenizeAux : List Char → List Char → List (List Char)
  | cur, [] => if cur = [] then [] else [cur.reverse]
  | cur, c :: rest =>
    if isWordChar c then tokenizeAux (c :: cur) rest
    else if cur = [] then tokenizeAux [] rest
    else cur.reverse :: tokenizeAux [] rest

/-- The non-empty tokens produced by `re.split(r"[\s\W]+", s)` followed by the
`if t` truthiness filter: the maximal runs of word characters. -/
def tokenize (l : List Char) : List (List Char) :=
  tokenizeAux [] l

/-- Worker for `pySplitUnderscore`. -/
def splitUnderscoreAux : List Char → List Char → List (List Char)
  | cur, [] => [cur.reverse]
  | cur, c :: rest =>
    if c = '_' then cur.reverse :: splitUnderscoreAux [] rest
    else splitUnderscoreAux (c :: cur) rest

/-- Model of Python `s.split("_")` (keeps empty fragments, as Python does). -/
def pySplitUnderscore (l : List Char) : List (List Char) :=
  splitUnderscoreAux [] l

/-! ## `core/utils.py` -/

/--
`sanitize_identifier` from `core/utils.py`:
remove every character outside `[a-zA-Z0-9_]`; if the result is empty or does
not start with `[a-zA-Z_]`, prepend `"t_"`; truncate to 64 characters and
lower-case.
-/
def sanitize_identifier (s : List Char) : List Char :=
  let clean := s.filter isWordChar
  let clean2 :=
    match clean with
    | [] => 't' :: '_' :: clean
    | c :: _ => if isLeadChar c then clean else 't' :: '_' :: clean
  (clean2.take 64).map asciiLower

/-- The back-tick character (numeric to keep the sources free of raw ticks). -/
def btick : Char := Char.ofNat 96

/-- The three-character markdown fence delimiter. -/
def fenceMark : List Char := [btick, btick, btick]

/-- Whether `pat` occurs as a contiguous run inside the list
(model of the Python `in` substring test). -/
def containsSeq (pat : List Char) : List Char → Bool
  | [] => pat.isEmpty
  | c :: rest => pat.isPrefixOf (c :: rest) || containsSeq pat rest

/-- The keyword tuple of the `startswith` check in `clean_sql`. -/
def sqlKeywords : List (List Char) :=
  ["SELECT".toList, "WITH".toList, "INSERT".toList, "UPDATE".toList, "DELETE".toList]

/-- `cleaned.upper().startswith(("SELECT", "WITH", "INSERT", "UPDATE", "DELETE"))`. -/
def startsWithSqlKeyword (l : List Char) : Bool :=
  sqlKeywords.any (fun kw => kw.isPrefixOf (l.map asciiUpper))

/-- The fence-stripping branch of `clean_sql`: drop a leading line that starts
with a fence and a trailing line that is exactly a fence, re-join, strip. -/
def stripFenceLines (cleaned : List Char) : List Char :=
  let lines := pySplitlines cleaned
  let lines1 :=
    match lines with
    | [] => ([] : List (List Char))
    | l0 :: rest => if fenceMark.isPrefixOf (pyStrip l0) then rest else l0 :: rest
  let lines2 :=
    match lines1.getLast? with
    | some last => if pyStrip last = fenceMark then lines1.dropLast else lines1
    | none => lines1
  pyStrip (List.intercalate ['\n'] lines2)

/--
`clean_sql` from `core/utils.py`:
strip; return as-is when the upper-cased text starts with a SQL keyword;
otherwise strip leading/trailing markdown fences when a fence occurs.
-/
def clean_sql (raw : List Char) : List Char :=
  let cleaned := pyStrip raw
  if startsWithSqlKeyword cleaned then cleaned
  else if containsSeq fenceMark cleaned then stripFenceLines cleaned
  else cleaned

/-- Spec-side character class: lower-case alphanumeric or underscore. -/
def isLowerWordChar (c : Char) : Bool :=
  (97 ≤ c.toNat && c.toNat ≤ 122) || (48 ≤ c.toNat && c.toNat ≤ 57) || c.toNat = 95

/-- Spec-side character class: lower-case letter or underscore. -/
def isLowerLeadChar (c : Char) : Bool :=
  (97 ≤ c.toNat && c.toNat ≤ 122) || c.toNat = 95

/-! ## `agents/critic.py` — the self-correcting retry loop

`engine.execute` (`core/engine.py`) catches every exception and re-raises
`ValueError`, so an execution attempt is modelled as returning either data or
a `ValueError` message.  The `llm_chat` correction call may fail with any
other exception class, which the Python loop does not catch; that outcome is
modelled as `LlmOutcome.exn` and propagates through the `Except` monad. -/

/-- One entry of the critic's `history` list: `{"sql": ..., "error": ...}`. -/
structure Attempt where
  sql : List Char
  error : List Char
deriving DecidableEq, Repr

/-- Result of `DuckDBEngine.execute`: a dataframe, or the `ValueError` it
raises on any execution failure. -/
inductive ExecOutcome (Data : Type) where
  | ok (data : Data)
  | valueError (msg : List Char)
deriving DecidableEq, Repr

/-- Result of the `llm_chat` correction call: the raw completion text, or a
propagating exception of any non-`ValueError` class. -/
inductive LlmOutcome where
  | ok (raw : List Char)
  | exn (e : List Char)
deriving DecidableEq, Repr

/-- A value stored in one of the Python result dicts. -/
inductive PyVal (Data : Type) where
  | bool (b : Bool)
  | str (s : List Char)
  | nat (n : Nat)
  | data (d : Data)
deriving DecidableEq, Repr

/-- A Python dict with string keys, as the ordered list of its entries. -/
abbrev ResultDict (Data : Type) := List (List Char × PyVal Data)

/-- Key lookup in a result dict; `none` means the key is absent. -/
def dictGet {Data : Type} (d : ResultDict Data) (k : List Char) : Option (PyVal Data) :=
  (d.find? (fun p => p.1 == k)).map (fun p => p.2)

/-- The dict returned on a successful execution attempt
(`{"success": True, "sql": ..., "data": ..., "attempts": ...}`). -/
def successDict {Data : Type} (sql : List Char) (d : Data) (attempt : Nat) : ResultDict Data :=
  [("success".toList, .bool true), ("sql".toList, .str sql),
   ("data".toList, .data d), ("attempts".toList, .nat attempt)]

/-- The dict returned when the final attempt fails
(`{"success": False, "sql": ..., "error": ..., "attempts": ...}`). -/
def failureDict {Data : Type} (sql err : List Char) (attempt : Nat) : ResultDict Data :=
  [("success".toList, .bool false), ("sql".toList, .str sql),
   ("error".toList, .str err), ("attempts".toList, .nat attempt)]

/-- The dict of the fall-through `return` after the `for` loop (reached only
when `max_retries < 1`). -/
def exhaustedDict {Data : Type} (sql : List Char) (maxRetries : Nat) : ResultDict Data :=
  [("success".toList, .bool false), ("sql".toList, .str sql),
   ("error".toList, .str "Max retries exceeded".toList), ("attempts".toList, .nat maxRetries)]

/-- The body of `execute_with_retry`'s `for attempt in range(1, max_retries + 1)`
loop, iterating over the remaining attempt numbers.  On a correction, the raw
completion is normalized with `clean_sql` exactly as in the source.  The value
carried by `.error` is the propagating exception together with the attempt
history accumulated when it escapes. -/
def retryLoop {Data : Type} (exec : List Char → ExecOutcome Data)
    (llm : List Char → List Char → List Attempt → LlmOutcome) (maxRetries : Nat) :
    List Nat → List Char → List Attempt →
    Except (List Char × List Attempt) (ResultDict Data × List Attempt)
  | [], currentSql, history => .ok (exhaustedDict currentSql maxRetries, history)
  | attempt :: rest, currentSql, history =>
    match exec currentSql with
    | .ok d => .ok (successDict currentSql d attempt, history)
    | .valueError msg =>
      let history2 := history ++ [⟨currentSql, msg⟩]
      if attempt = maxRetries then
        .ok (failureDict currentSql msg attempt, history2)
      else
        match llm currentSql msg history2 with
        | .exn e => .error (e, history2)
        | .ok raw => retryLoop exec llm maxRetries rest (clean_sql raw) history2

/-- `CriticAgent.execute_with_retry(sql, question, schema)`.  The `question`
and `schema` arguments only feed the correction prompt, so they are absorbed
into the `llm` oracle. -/
def execute_with_retry {Data : Type} (exec : List Char → ExecOutcome Data)
    (llm : List Char → List Char → List Attempt → LlmOutcome)
    (maxRetries : Nat) (sql : List Char) :
    Except (List Char × List Attempt) (ResultDict Data × List Attempt) :=
  retryLoop exec llm maxRetries (List.range' 1 maxRetries) sql []

/-! ## `agents/resolver.py` — `SemanticResolver.enrich`

`fuzz.partial_ratio` (an integer in 0..100) and the semantic
cosine-similarity scores (`(scores * 100).tolist()`) are oracles; the
combined score lives in `ℚ`, ordered exactly as Python orders the
`max(int, float)` mixture. -/

/-- One element of `self._all_columns`: `{"table": ..., "column": ..., "type": ...}`. -/
structure ColEntry where
  table : List Char
  column : List Char
  ty : List Char
deriving DecidableEq, Repr

/-- One retained match: `{"keyword": ..., "column": ..., "table": ..., "score": ...}`. -/
structure ColumnMatch where
  keyword : List Char
  column : List Char
  table : List Char
  score : ℚ
deriving DecidableEq, Repr

/-- A schema as returned by `DuckDBEngine.get_schema`: an ordered mapping
from table name to its `(column, type)` descriptors. -/
abbrev Schema := List (List Char × List (List Char × List Char))

/-- The resolver's matching state: the flat column list extracted from the
constructor-time schema, the retention threshold, the lexical
`fuzz.partial_ratio` oracle and, in hybrid mode, the per-column-index
semantic score oracle. -/
structure Resolver where
  allColumns : List ColEntry
  fuzzyThreshold : Nat
  lex : List Char → List Char → Nat
  sem : Option (List Char → Nat → ℚ)

/-- The stop-word set of `agents/resolver.py`. -/
def stopWords : List (List Char) :=
  ["the", "a", "an", "is", "in", "of", "for", "by", "and",
   "or", "to", "show", "me", "what", "how", "many", "which",
   "who", "where", "get", "find", "list", "give", "with", "per"].map String.toList

/-- `SemanticResolver._extract_keywords`: lower-case, split on
whitespace/non-word runs, drop empties and stop words. -/
def extractKeywords (question : List Char) : List (List Char) :=
  (tokenize (question.map asciiLower)).filter (fun t => !(stopWords.contains t))

/-- The score the loop computes for keyword `kw` against the column at index
`i`: `max(fuzz.partial_ratio(kw, column.lower()), semantic_scores[i])` in
hybrid mode, the lexical score alone in fuzzy-only mode. -/
def combinedScore (R : Resolver) (kw : List Char) (i : Nat) (e : ColEntry) : ℚ :=
  let fuzzyScore : ℚ := (R.lex kw (e.column.map asciiLower) : Nat)
  match R.sem with
  | some f => max fuzzyScore (f kw i)
  | none => fuzzyScore

/-- Python dict assignment `best[k] = v`: replace in place when the key
exists (keeping its position), else append. -/
def bestInsert (best : List ((List Char × List Char) × ColumnMatch))
    (k : List Char × List Char) (v : ColumnMatch) :
    List ((List Char × List Char) × ColumnMatch) :=
  if best.any (fun p => p.1 == k) then
    best.map (fun p => if p.1 == k then (k, v) else p)
  else best ++ [(k, v)]

/-- Python dict lookup `best.get(k)`. -/
def bestFind (best : List ((List Char × List Char) × ColumnMatch))
    (k : List Char × List Char) : Option ColumnMatch :=
  (best.find? (fun p => p.1 == k)).map (fun p => p.2)

/-- The body of the inner `for i, entry in enumerate(self._all_columns)` loop
for one keyword: skip tables outside the active set, keep a score only at or
above the threshold, and overwrite an existing entry only on a strictly
greater score. -/
def processEntry (R : Resolver) (active : List (List Char)) (kw : List Char)
    (best : List ((List Char × List Char) × ColumnMatch)) (ie : Nat × ColEntry) :
    List ((List Char × List Char) × ColumnMatch) :=
  if active.contains ie.2.table then
    let score := combinedScore R kw ie.1 ie.2
    if (R.fuzzyThreshold : ℚ) ≤ score then
      let k := (ie.2.table, ie.2.column)
      match bestFind best k with
      | none => bestInsert best k ⟨kw, ie.2.column, ie.2.table, score⟩
      | some old =>
        if old.score < score then bestInsert best k ⟨kw, ie.2.column, ie.2.table, score⟩
        else best
    else best
  else best

/-- One iteration of the outer `for kw in keywords` loop. -/
def processKeyword (R : Resolver) (active : List (List Char))
    (best : List ((List Char × List Char) × ColumnMatch)) (kw : List Char) :
    List ((List Char × List Char) × ColumnMatch) :=
  R.allColumns.enum.foldl (processEntry R active kw) best

/-- The fully accumulated `best` dict of `enrich`. -/
def computeBest (R : Resolver) (active : List (List Char))
    (keywords : List (List Char)) : List ((List Char × List Char) × ColumnMatch) :=
  keywords.foldl (processKeyword R active) []

/-- `list(dict.fromkeys(...))`: order-preserving de-duplication. -/
def dedupFirstAux (seen : List (List Char)) : List (List Char) → List (List Char)
  | [] => []
  | x :: xs =>
    if seen.contains x then dedupFirstAux seen xs
    else x :: dedupFirstAux (x :: seen) xs

/-- Order-preserving de-duplication, keeping first occurrences. -/
def dedupFirst (l : List (List Char)) : List (List Char) :=
  dedupFirstAux [] l

/-- The `EnrichedContext` dict returned by `enrich`. -/
structure Enriched where
  original_schema : Schema
  column_matches : List ColumnMatch
  value_hints : List (List Char × List (List Char))
  relevant_tables : List (List Char)
deriving Repr

/-- `SemanticResolver.enrich(question, schema)`.  `hints table column` is the
oracle for the `SELECT DISTINCT ... LIMIT 5` sampling query; `none` models
the exception swallowed into an empty hint list. -/
def enrich (R : Resolver) (hints : List Char → List Char → Option (List (List Char)))
    (question : List Char) (schema : Schema) : Enriched :=
  let keywords := extractKeywords question
  let best := computeBest R (schema.map (fun p => p.1)) keywords
  let columnMatches := best.map (fun p => p.2)
  let valueHints := columnMatches.map (fun m =>
    (m.table ++ '.' :: m.column, (hints m.table m.column).getD []))
  { original_schema := schema
    column_matches := columnMatches
    value_hints := valueHints
    relevant_tables := dedupFirst (columnMatches.map (fun m => m.table)) }

/-! ## `core/orchestrator.py` — relevance gate and the reject branch of `run` -/

/-- The dynamically derived business vocabulary: the underscore-split
fragments of every (lower-cased) column name and table name. -/
def dynamicKeywords (schema : Schema) : List (List Char) :=
  schema.flatMap (fun p => p.2.flatMap (fun c => pySplitUnderscore (c.1.map asciiLower))) ++
    schema.flatMap (fun p => pySplitUnderscore (p.1.map asciiLower))

/-- `Orchestrator._is_database_question`: some token is in the vocabulary or
fuzzy-matches a table name at ratio ≥ 70 (`pr` is the `fuzz.partial_ratio`
oracle). -/
def isDatabaseQuestion (pr : List Char → List Char → Nat) (schema : Schema)
    (question : List Char) : Bool :=
  let words := tokenize (question.map asciiLower)
  let tableNames := schema.map (fun p => p.1)
  let dyn := dynamicKeywords schema
  words.any (fun w => dyn.contains w || tableNames.any (fun t => decide (70 ≤ pr w t)))

/-- The user-facing message of the rejection branch of `Orchestrator.run`. -/
def rejectMessage (schema : Schema) : List Char :=
  let tableExamples := List.intercalate ", ".toList ((schema.map (fun p => p.1)).take 3)
  "I can only answer questions about your database. Try asking about ".toList ++
    (if tableExamples = [] then "your data".toList else tableExamples) ++ ".".toList

/-- The dict returned by the rejection branch of `Orchestrator.run`. -/
def rejectDict {Data : Type} (schema : Schema) : ResultDict Data :=
  [("success".toList, .bool false), ("error".toList, .str (rejectMessage schema)),
   ("attempts".toList, .nat 0)]

/-- `Orchestrator.run(question)`: the relevance gate followed, only on
acceptance, by the rest of the pipeline (resolution, generation, execution),
abstracted as `pipelineRest` since the claims concern the reject path. -/
def orchestratorRun {Data : Type} (pr : List Char → List Char → Nat) (schema : Schema)
    (pipelineRest : List Char → ResultDict Data) (question : List Char) : ResultDict Data :=
  if isDatabaseQuestion pr schema question then pipelineRest question
  else rejectDict schema


/-! ### Spec predicates for the resolver invariant -/

/-- The `(table, column)` dict key of one column entry. -/
def entryKey (e : ColEntry) : List Char × List Char := (e.table, e.column)

/-- Every candidate occurrence of pair `k` among the entries of `L` that is in
an active table scores at most `s` for keyword `kw`. -/
def boundOn (R : Resolver) (active : List (List Char)) (kw : List Char)
    (L : List (Nat × ColEntry)) (k : List Char × List Char) (s : ℚ) : Prop :=
  ∀ i e, (i, e) ∈ L → entryKey e = k → active.contains e.table = true →
    combinedScore R kw i e ≤ s

/-- Strict variant of `boundOn`. -/
def strictBoundOn (R : Resolver) (active : List (List Char)) (kw : List Char)
    (L : List (Nat × ColEntry)) (k : List Char × List Char) (s : ℚ) : Prop :=
  ∀ i e, (i, e) ∈ L → entryKey e = k → active.contains e.table = true →
    combinedScore R kw i e < s

/-- Every candidate occurrence of pair `k` among the entries of `L` scores
strictly below the retention threshold for keyword `kw`. -/
def belowThrOn (R : Resolver) (active : List (List Char)) (kw : List Char)
    (L : List (Nat × ColEntry)) (k : List Char × List Char) : Prop :=
  strictBoundOn R active kw L k (R.fuzzyThreshold : ℚ)

/-- Well-formedness of one `best` entry: match fields agree with the key, the
table is active, the pair occurs in the resolver's column list, and the score
clears the threshold. -/
def matchWF (R : Resolver) (active : List (List Char))
    (p : (List Char × List Char) × ColumnMatch) : Prop :=
  p.2.table = p.1.1 ∧ p.2.column = p.1.2 ∧ active.contains p.2.table = true ∧
  (∃ i e, (i, e) ∈ R.allColumns.enum ∧ entryKey e = p.1) ∧
  (R.fuzzyThreshold : ℚ) ≤ p.2.score

/-- The loop invariant of the `best` dict after processing the keyword list
`kws`: keys are unique; every entry is well formed, dominates every candidate
score of its pair over all processed keywords, and records the first keyword
attaining its score (all strictly earlier keywords score strictly below it on
the pair); and a pair absent from `best` had all its candidate scores below
the threshold for every processed keyword. -/
def bestInv (R : Resolver) (active : List (List Char)) (kws : List (List Char))
    (best : List ((List Char × List Char) × ColumnMatch)) : Prop :=
  (best.map Prod.fst).Nodup ∧
  (∀ p ∈ best, matchWF R active p ∧
    (∀ kw ∈ kws, boundOn R active kw R.allColumns.enum p.1 p.2.score) ∧
    (∃ pre post, kws = pre ++ p.2.keyword :: post ∧
      (∃ i e, (i, e) ∈ R.allColumns.enum ∧ entryKey e = p.1 ∧
        active.contains e.table = true ∧
        combinedScore R p.2.keyword i e = p.2.score) ∧
      ∀ kw' ∈ pre, strictBoundOn R active kw' R.allColumns.enum p.1 p.2.score)) ∧
  (∀ k, (∀ p ∈ best, p.1 ≠ k) →
    ∀ kw ∈ kws, belowThrOn R active kw R.allColumns.enum k)



/-! ### Concrete fixtures for the resolver witnesses -/

/-- A concrete resolver over one table `orders(customer_id, order_date)`,
fuzzy-only mode, with a prefix-based lexical oracle. -/
def rcW : Resolver :=
  { allColumns := [⟨"orders".toList, "customer_id".toList, "BIGINT".toList⟩,
                   ⟨"orders".toList, "order_date".toList, "VARCHAR".toList⟩]
    fuzzyThreshold := 70
    lex := fun kw col => if kw.isPrefixOf col then 90 else 10
    sem := none }

/-- The schema passed to `enrich` in the resolver witnesses. -/
def scW : Schema :=
  [("orders".toList, [("customer_id".toList, "BIGINT".toList),
                      ("order_date".toList, "VARCHAR".toList)])]

/-- The question of the resolver witnesses. -/
def qW : List Char := "Get all customer orders".toList

/-- A sampling oracle that always fails (hints degrade to empty lists). -/
def hintsW : List Char → List Char → Option (List (List Char)) := fun _ _ => none

/-- The single match produced by `enrich rcW hintsW qW scW`. -/
def mW : ColumnMatch :=
  ⟨"customer".toList, "customer_id".toList, "orders".toList, ((90 : Nat) : ℚ)⟩


/-! ## Theorems -/

/-! ### Character-level lemmas -/

theorem char_toNat_ofNat (n : Nat) (h : n < 55296) : (Char.ofNat n).toNat = n := by
  unfold Char.ofNat
  rw [dif_pos (Or.inl h)]
  simp [Char.ofNatAux, Char.toNat, UInt32.toNat]

theorem asciiLower_isWordChar {c : Char} (h : isWordChar c = true) :
    isLowerWordChar (asciiLower c) = true := by
  simp only [isWordChar, Bool.or_eq_true, Bool.and_eq_true, decide_eq_true_eq] at h
  unfold asciiLower
  split
  next hc =>
    simp only [Bool.and_eq_true, decide_eq_true_eq] at hc
    simp only [isLowerWordChar, Bool.or_eq_true, Bool.and_eq_true, decide_eq_true_eq]
    rw [char_toNat_ofNat (c.toNat + 32) (by omega)]
    omega
  next hc =>
    simp only [Bool.and_eq_true, decide_eq_true_eq] at hc
    simp only [isLowerWordChar, Bool.or_eq_true, Bool.and_eq_true, decide_eq_true_eq]
    omega

theorem asciiLower_isLeadChar {c : Char} (h : isLeadChar c = true) :
    isLowerLeadChar (asciiLower c) = true := by
  simp only [isLeadChar, Bool.or_eq_true, Bool.and_eq_true, decide_eq_true_eq] at h
  unfold asciiLower
  split
  next hc =>
    simp only [Bool.and_eq_true, decide_eq_true_eq] at hc
    simp only [isLowerLeadChar, Bool.or_eq_true, Bool.and_eq_true, decide_eq_true_eq]
    rw [char_toNat_ofNat (c.toNat + 32) (by omega)]
    omega
  next hc =>
    simp only [Bool.and_eq_true, decide_eq_true_eq] at hc
    simp only [isLowerLeadChar, Bool.or_eq_true, Bool.and_eq_true, decide_eq_true_eq]
    omega

/-! ### C7 — `sanitize_identifier` -/

/-- **C7.** `sanitize_identifier "Order Details" = "orderdetails"` and
`sanitize_identifier "123abc" = "t_123abc"`; and for every input string the
output is non-empty, starts with a lower-case letter or underscore, contains
only lower-case alphanumerics and underscores, and has length at most 64. -/
theorem sanitize_identifier_spec :
    sanitize_identifier ("Order Details".toList) = "orderdetails".toList ∧
    sanitize_identifier ("123abc".toList) = "t_123abc".toList ∧
    ∀ s : List Char,
      (∃ c t, sanitize_identifier s = c :: t ∧ isLowerLeadChar c = true) ∧
      (sanitize_identifier s).all isLowerWordChar = true ∧
      (sanitize_identifier s).length ≤ 64 := by
  refine ⟨by decide, by decide, fun s => ?_⟩
  have hmem : ∀ c ∈ s.filter isWordChar, isWordChar c = true := by
    intro c hc
    exact (List.mem_filter.mp hc).2
  -- the list after the `"t_"`-prepending step
  set clean := s.filter isWordChar with hclean
  obtain ⟨c₀, t₀, hct, hlead, hmem2⟩ :
      ∃ c₀ t₀,
        (match clean with
          | [] => 't' :: '_' :: clean
          | c :: _ => if isLeadChar c then clean else 't' :: '_' :: clean) = c₀ :: t₀ ∧
        isLeadChar c₀ = true ∧ ∀ c ∈ c₀ :: t₀, isWordChar c = true := by
    match hc : clean with
    | [] => exact ⟨'t', ['_'], by simp [hc], by decide, by decide⟩
    | c :: t =>
      by_cases hl : isLeadChar c = true
      · refine ⟨c, t, by simp [hl], hl, ?_⟩
        intro x hx
        exact hmem x (hc ▸ hx)
      · refine ⟨'t', '_' :: c :: t, by simp [hl], by decide, ?_⟩
        intro x hx
        rcases List.mem_cons.mp hx with rfl | hx
        · decide
        · rcases List.mem_cons.mp hx with rfl | hx
          · decide
          · exact hmem x (hc ▸ hx)
  rw [sanitize_identifier]
  rw [hct]
  refine ⟨⟨asciiLower c₀, ((t₀.take 63).map asciiLower), ?_, asciiLower_isLeadChar hlead⟩, ?_, ?_⟩
  · rw [List.take_succ_cons, List.map_cons]
  · rw [List.all_eq_true]
    intro x hx
    rw [List.mem_map] at hx
    obtain ⟨y, hy, rfl⟩ := hx
    exact asciiLower_isWordChar (hmem2 y (List.take_subset 64 _ hy))
  · rw [List.length_map, List.length_take]
    omega

/-! ### C6 — (non-)idempotence of `clean_sql` -/

theorem dropWhile_eq_self_of_prefix {p : Char → Bool} {s t : List Char}
    (hpre : s <+: t) (ht : t.dropWhile p = t) : s.dropWhile p = s := by
  match s, t with
  | [], _ => rfl
  | a :: s', t =>
    obtain ⟨u, rfl⟩ := hpre
    rw [List.cons_append] at ht
    have ha : p a = false := by
      by_contra hpa
      rw [Bool.not_eq_false] at hpa
      rw [List.dropWhile_cons, if_pos hpa] at ht
      have hlen := congrArg List.length ht
      have hle : (List.dropWhile p (s' ++ u)).length ≤ (s' ++ u).length :=
        ((List.dropWhile_suffix p).sublist).length_le
      simp at hlen hle
      omega
    rw [List.dropWhile_cons, if_neg (by simp [ha])]

theorem pyStrip_idem (l : List Char) : pyStrip (pyStrip l) = pyStrip l := by
  rw [pyStrip, pyStrip]
  set A := l.dropWhile isPySpace with hA
  set B := A.reverse.dropWhile isPySpace with hB
  have hBrev : B.reverse <+: A := by
    have hsuf : B <:+ A.reverse := hB ▸ List.dropWhile_suffix isPySpace
    have := List.reverse_prefix.mpr hsuf
    rwa [List.reverse_reverse] at this
  have hAnl : A.dropWhile isPySpace = A := by
    rw [hA]
    exact List.dropWhile_idempotent _ _
  have h1 : B.reverse.dropWhile isPySpace = B.reverse :=
    dropWhile_eq_self_of_prefix hBrev hAnl
  rw [h1, List.reverse_reverse]
  have h2 : B.dropWhile isPySpace = B := by
    rw [hB]
    exact List.dropWhile_idempotent _ _
  rw [h2]

theorem pyStrip_stripFenceLines (x : List Char) :
    pyStrip (stripFenceLines x) = stripFenceLines x := by
  rw [stripFenceLines]
  exact pyStrip_idem _

theorem clean_sql_stripped (raw : List Char) :
    pyStrip (clean_sql raw) = clean_sql raw := by
  rw [clean_sql]
  by_cases h1 : startsWithSqlKeyword (pyStrip raw) = true
  · rw [if_pos h1]
    exact pyStrip_idem raw
  · rw [if_neg h1]
    by_cases h2 : containsSeq fenceMark (pyStrip raw) = true
    · rw [if_pos h2]
      exact pyStrip_stripFenceLines _
    · rw [if_neg h2]
      exact pyStrip_idem raw

theorem clean_sql_fix {x : List Char} (hx : pyStrip x = x)
    (h : startsWithSqlKeyword x = true ∨ containsSeq fenceMark x = false) :
    clean_sql x = x := by
  rw [clean_sql, hx]
  rcases h with h | h
  · rw [if_pos h]
  · by_cases h1 : startsWithSqlKeyword x = true
    · rw [if_pos h1]
    · rw [if_neg h1, if_neg (by simp [h])]

/-- A concrete completion on which `clean_sql` is not idempotent:
the text `"x\n"` followed by two fence lines. -/
def cexCleanSql : List Char := 'x' :: '\n' :: (fenceMark ++ '\n' :: fenceMark)

/-- **C6 counterexample.** `clean_sql` is not idempotent: on
`"x\n` followed by two fence-only lines, one application yields `"x\n"` plus
a fence line, and a second application strips that remaining fence line. -/
theorem clean_sql_not_idem_cex :
    clean_sql (clean_sql cexCleanSql) ≠ clean_sql cexCleanSql := by decide

/-- **C6 (amended).** `clean_sql` is idempotent on every input whose output
either starts (after upper-casing) with one of the SQL keywords or contains
no fence marker; on outputs that still contain a fence marker a second
application may strip further (see the counterexample). -/
theorem clean_sql_idem_of (raw : List Char)
    (h : startsWithSqlKeyword (clean_sql raw) = true ∨
      containsSeq fenceMark (clean_sql raw) = false) :
    clean_sql (clean_sql raw) = clean_sql raw :=
  clean_sql_fix (clean_sql_stripped raw) h

/-- Witness for `clean_sql_idem_of` at the concrete input `"select 1"`. -/
theorem clean_sql_idem_of_witness :
    (startsWithSqlKeyword (clean_sql ("select 1".toList)) = true ∨
      containsSeq fenceMark (clean_sql ("select 1".toList)) = false) ∧
    clean_sql (clean_sql ("select 1".toList)) = clean_sql ("select 1".toList) :=
  ⟨Or.inl (by decide), clean_sql_idem_of ("select 1".toList) (Or.inl (by decide))⟩

/-! ### The retry loop: C1, C3, C8 -/

theorem range'_cons (a k : Nat) : List.range' a (k + 1) = a :: List.range' (a + 1) k := rfl

theorem retryLoop_fail_all {Data : Type} (exec : List Char → ExecOutcome Data)
    (llm : List Char → List Char → List Attempt → LlmOutcome) (maxRetries : Nat)
    (hexec : ∀ s, ∃ m, exec s = ExecOutcome.valueError m)
    (hllm : ∀ s m h, ∃ r, llm s m h = LlmOutcome.ok r) :
    ∀ k a sql hist, 1 ≤ k → a + k = maxRetries + 1 →
      ∃ sqlF msgF histF,
        retryLoop exec llm maxRetries (List.range' a k) sql hist
          = .ok (failureDict sqlF msgF maxRetries, hist ++ histF) ∧
        histF.length = k := by
  intro k
  induction k with
  | zero => omega
  | succ k ih =>
    intro a sql hist _ hak
    obtain ⟨m, hm⟩ := hexec sql
    rw [range'_cons, retryLoop, hm]
    dsimp only
    by_cases hk : k = 0
    · subst hk
      have ha : a = maxRetries := by omega
      rw [if_pos ha, ha]
      exact ⟨sql, m, [⟨sql, m⟩], rfl, rfl⟩
    · have ha : a ≠ maxRetries := by omega
      rw [if_neg ha]
      obtain ⟨r, hr⟩ := hllm sql m (hist ++ [⟨sql, m⟩])
      rw [hr]
      dsimp only
      obtain ⟨sqlF, msgF, histF, hrec, hlen⟩ :=
        ih (a + 1) (clean_sql r) (hist ++ [⟨sql, m⟩]) (by omega) (by omega)
      refine ⟨sqlF, msgF, ⟨sql, m⟩ :: histF, ?_, by simp [hlen]⟩
      rw [hrec, List.append_assoc]
      rfl

theorem retryLoop_success {Data : Type} (exec : List Char → ExecOutcome Data)
    (llm : List Char → List Char → List Attempt → LlmOutcome) (maxRetries : Nat) :
    ∀ k a sql hist dict histF,
      retryLoop exec llm maxRetries (List.range' a k) sql hist = .ok (dict, histF) →
      dictGet dict ("success".toList) = some (.bool true) →
      a + k = maxRetries + 1 → a = hist.length + 1 →
      dictGet dict ("attempts".toList) = some (.nat (histF.length + 1)) ∧
        histF.length + 1 ≤ maxRetries := by
  intro k
  induction k with
  | zero =>
    intro a sql hist dict histF hrun hsucc _ _
    rw [show List.range' a 0 = [] from rfl, retryLoop] at hrun
    obtain ⟨hdict, -⟩ := Prod.mk.injEq .. ▸ (Except.ok.injEq .. ▸ hrun)
    rw [← hdict] at hsucc
    simp [dictGet, exhaustedDict, List.find?] at hsucc
  | succ k ih =>
    intro a sql hist dict histF hrun hsucc hak ha
    rw [range'_cons, retryLoop] at hrun
    cases hx : exec sql with
    | ok d =>
      rw [hx] at hrun
      dsimp only at hrun
      obtain ⟨hdict, hhist⟩ := Prod.mk.injEq .. ▸ (Except.ok.injEq .. ▸ hrun)
      subst hhist
      rw [← hdict]
      constructor
      · rw [← ha]
        rfl
      · omega
    | valueError m =>
      rw [hx] at hrun
      dsimp only at hrun
      by_cases hmax : a = maxRetries
      · rw [if_pos hmax] at hrun
        obtain ⟨hdict, -⟩ := Prod.mk.injEq .. ▸ (Except.ok.injEq .. ▸ hrun)
        rw [← hdict] at hsucc
        simp [dictGet, failureDict, List.find?] at hsucc
      · rw [if_neg hmax] at hrun
        cases hl : llm sql m (hist ++ [⟨sql, m⟩]) with
        | exn e =>
          rw [hl] at hrun
          exact absurd hrun (by simp)
        | ok r =>
          rw [hl] at hrun
          dsimp only at hrun
          exact ih (a + 1) (clean_sql r) (hist ++ [⟨sql, m⟩]) dict histF hrun hsucc
            (by omega) (by simp; omega)

/-- **C1.** With retry budget `max_retries ≥ 1`: when every execution attempt
fails with the engine's `ValueError` (and the correction call itself never
fails), `execute_with_retry` returns a failure dict whose `attempts` field is
`max_retries` and an attempt history of length `max_retries`; and whenever it
returns a success dict, the `attempts` field is `k = history.length + 1`, the
index of the first successful attempt, with `k ≤ max_retries`. -/
theorem execute_with_retry_attempts {Data : Type} (exec : List Char → ExecOutcome Data)
    (llm : List Char → List Char → List Attempt → LlmOutcome) (maxRetries : Nat)
    (sql0 : List Char) (hmax : 1 ≤ maxRetries) :
    ((∀ s, ∃ m, exec s = ExecOutcome.valueError m) →
      (∀ s m h, ∃ r, llm s m h = LlmOutcome.ok r) →
      ∃ sqlF msgF histF,
        execute_with_retry exec llm maxRetries sql0
          = .ok (failureDict sqlF msgF maxRetries, histF) ∧
        dictGet (@failureDict Data sqlF msgF maxRetries) ("success".toList)
          = some (.bool false) ∧
        dictGet (@failureDict Data sqlF msgF maxRetries) ("attempts".toList)
          = some (.nat maxRetries) ∧
        histF.length = maxRetries) ∧
    (∀ dict histF,
      execute_with_retry exec llm maxRetries sql0 = .ok (dict, histF) →
      dictGet dict ("success".toList) = some (.bool true) →
      dictGet dict ("attempts".toList) = some (.nat (histF.length + 1)) ∧
        histF.length + 1 ≤ maxRetries) := by
  constructor
  · intro hexec hllm
    obtain ⟨sqlF, msgF, histF, hrun, hlen⟩ :=
      retryLoop_fail_all exec llm maxRetries hexec hllm maxRetries 1 sql0 [] hmax (by omega)
    exact ⟨sqlF, msgF, histF, by rw [execute_with_retry, hrun]; rfl, rfl, rfl, hlen⟩
  · intro dict histF hrun hsucc
    exact retryLoop_success exec llm maxRetries maxRetries 1 sql0 [] dict histF hrun hsucc
      (by omega) rfl

/-- Concrete engine oracle for the witnesses: only `"SELECT 2"` executes. -/
def wExec : List Char → ExecOutcome Nat :=
  fun s => if s = "SELECT 2".toList then .ok 0 else .valueError ("e".toList)

/-- Concrete correction oracle for the witnesses: always proposes `"SELECT 2"`. -/
def wLlm : List Char → List Char → List Attempt → LlmOutcome :=
  fun _ _ _ => .ok ("SELECT 2".toList)

/-- Witness for `execute_with_retry_attempts`: with budget 3, a statement
corrected successfully on the second attempt reports `attempts = 2`. -/
theorem execute_with_retry_attempts_witness :
    dictGet (successDict ("SELECT 2".toList) (0 : Nat) 2) ("attempts".toList)
        = some (.nat ([Attempt.mk ("SELECT 1".toList) ("e".toList)].length + 1)) ∧
      [Attempt.mk ("SELECT 1".toList) ("e".toList)].length + 1 ≤ 3 :=
  (execute_with_retry_attempts wExec wLlm 3 ("SELECT 1".toList) (by decide)).2
    (successDict ("SELECT 2".toList) 0 2) [⟨"SELECT 1".toList, "e".toList⟩] rfl rfl

theorem retryLoop_ok_of_llm_ok {Data : Type} (exec : List Char → ExecOutcome Data)
    (llm : List Char → List Char → List Attempt → LlmOutcome) (maxRetries : Nat)
    (hllm : ∀ s m h, ∃ r, llm s m h = LlmOutcome.ok r) :
    ∀ (attempts : List Nat) (sql : List Char) (hist : List Attempt),
      ∃ p, retryLoop exec llm maxRetries attempts sql hist = .ok p := by
  intro attempts
  induction attempts with
  | nil =>
    intro sql hist
    exact ⟨_, rfl⟩
  | cons a rest ih =>
    intro sql hist
    rw [retryLoop]
    cases hx : exec sql with
    | ok d => exact ⟨_, rfl⟩
    | valueError m =>
      dsimp only
      by_cases hmax : a = maxRetries
      · rw [if_pos hmax]
        exact ⟨_, rfl⟩
      · rw [if_neg hmax]
        obtain ⟨r, hr⟩ := hllm sql m (hist ++ [⟨sql, m⟩])
        rw [hr]
        exact ih (clean_sql r) (hist ++ [⟨sql, m⟩])

/-- **C3.** Only the engine's `ValueError` triggers a correction attempt:
when the correction call never fails, the loop always terminates with a
returned result dict; and when the first attempt fails with a `ValueError`
and the correction call then raises any other exception, that exception
propagates immediately out of `execute_with_retry` with the attempt history
containing only the single failed SQL attempt — the correction failure itself
is not counted as an attempt. -/
theorem execute_with_retry_error_classes {Data : Type} (exec : List Char → ExecOutcome Data)
    (llm : List Char → List Char → List Attempt → LlmOutcome) (maxRetries : Nat)
    (sql0 : List Char) :
    ((∀ s m h, ∃ r, llm s m h = LlmOutcome.ok r) →
      ∃ p, execute_with_retry exec llm maxRetries sql0 = .ok p) ∧
    (∀ msg e, exec sql0 = ExecOutcome.valueError msg → 2 ≤ maxRetries →
      llm sql0 msg [⟨sql0, msg⟩] = LlmOutcome.exn e →
      execute_with_retry exec llm maxRetries sql0 = .error (e, [⟨sql0, msg⟩])) := by
  constructor
  · intro hllm
    exact retryLoop_ok_of_llm_ok exec llm maxRetries hllm (List.range' 1 maxRetries) sql0 []
  · intro msg e hx hmax hl
    obtain ⟨m, rfl⟩ : ∃ m, maxRetries = m + 2 := ⟨maxRetries - 2, by omega⟩
    rw [execute_with_retry, range'_cons, retryLoop, hx]
    dsimp only
    rw [if_neg (by omega), List.nil_append] at *
    rw [hl]

/-- Always-failing engine oracle for the C3 and C8 witnesses. -/
def vExec : List Char → ExecOutcome Nat :=
  fun _ => .valueError ("boom".toList)

/-- Always-unavailable correction oracle for the C3 witness. -/
def vLlm : List Char → List Char → List Attempt → LlmOutcome :=
  fun _ _ _ => .exn ("down".toList)

/-- Witness for `execute_with_retry_error_classes`: a correction-call failure
on the first corrected attempt aborts the loop immediately. -/
theorem execute_with_retry_error_classes_witness :
    execute_with_retry vExec vLlm 3 ("SELECT 1".toList)
      = .error ("down".toList, [⟨"SELECT 1".toList, "boom".toList⟩]) :=
  (execute_with_retry_error_classes vExec vLlm 3 ("SELECT 1".toList)).2
    ("boom".toList) ("down".toList) rfl (by decide) rfl

theorem retryLoop_dict_shape {Data : Type} (exec : List Char → ExecOutcome Data)
    (llm : List Char → List Char → List Attempt → LlmOutcome) (maxRetries : Nat) :
    ∀ (attempts : List Nat) (sql : List Char) (hist : List Attempt)
      (dict : ResultDict Data) (histF : List Attempt),
      retryLoop exec llm maxRetries attempts sql hist = .ok (dict, histF) →
      (∃ s d a, dict = successDict s d a) ∨ (∃ s e a, dict = failureDict s e a) ∨
        (∃ s, dict = exhaustedDict s maxRetries) := by
  intro attempts
  induction attempts with
  | nil =>
    intro sql hist dict histF hrun
    rw [retryLoop] at hrun
    obtain ⟨hdict, -⟩ := Prod.mk.injEq .. ▸ (Except.ok.injEq .. ▸ hrun)
    exact Or.inr (Or.inr ⟨sql, hdict.symm⟩)
  | cons a rest ih =>
    intro sql hist dict histF hrun
    rw [retryLoop] at hrun
    cases hx : exec sql with
    | ok d =>
      rw [hx] at hrun
      dsimp only at hrun
      obtain ⟨hdict, -⟩ := Prod.mk.injEq .. ▸ (Except.ok.injEq .. ▸ hrun)
      exact Or.inl ⟨sql, d, a, hdict.symm⟩
    | valueError m =>
      rw [hx] at hrun
      dsimp only at hrun
      by_cases hmax : a = maxRetries
      · rw [if_pos hmax] at hrun
        obtain ⟨hdict, -⟩ := Prod.mk.injEq .. ▸ (Except.ok.injEq .. ▸ hrun)
        exact Or.inr (Or.inl ⟨sql, m, a, hdict.symm⟩)
      · rw [if_neg hmax] at hrun
        cases hl : llm sql m (hist ++ [⟨sql, m⟩]) with
        | exn e =>
          rw [hl] at hrun
          exact absurd hrun (by simp)
        | ok r =>
          rw [hl] at hrun
          dsimp only at hrun
          exact ih (clean_sql r) (hist ++ [⟨sql, m⟩]) dict histF hrun

/-- **C8 (amended).** Every result dict returned by `execute_with_retry`
contains the keys `success`, `sql` and `attempts`; a success result
additionally contains `data` and has **no** `error` key, and a failure result
additionally contains `error` and has **no** `data` key (the code omits the
unused key instead of storing a null). -/
theorem execute_with_retry_result_fields {Data : Type} (exec : List Char → ExecOutcome Data)
    (llm : List Char → List Char → List Attempt → LlmOutcome) (maxRetries : Nat)
    (sql0 : List Char) (dict : ResultDict Data) (histF : List Attempt)
    (hrun : execute_with_retry exec llm maxRetries sql0 = .ok (dict, histF)) :
    (∃ s, dictGet dict ("sql".toList) = some (.str s)) ∧
    (∃ n, dictGet dict ("attempts".toList) = some (.nat n)) ∧
    ((dictGet dict ("success".toList) = some (.bool true) ∧
        (∃ d, dictGet dict ("data".toList) = some (.data d)) ∧
        dictGet dict ("error".toList) = none) ∨
     (dictGet dict ("success".toList) = some (.bool false) ∧
        (∃ e, dictGet dict ("error".toList) = some (.str e)) ∧
        dictGet dict ("data".toList) = none)) := by
  rcases retryLoop_dict_shape exec llm maxRetries (List.range' 1 maxRetries) sql0 [] dict histF
      hrun with ⟨s, d, a, rfl⟩ | ⟨s, e, a, rfl⟩ | ⟨s, rfl⟩
  · exact ⟨⟨s, rfl⟩, ⟨a, rfl⟩, Or.inl ⟨rfl, ⟨d, rfl⟩, rfl⟩⟩
  · exact ⟨⟨s, rfl⟩, ⟨a, rfl⟩, Or.inr ⟨rfl, ⟨e, rfl⟩, rfl⟩⟩
  · exact ⟨⟨s, rfl⟩, ⟨maxRetries, rfl⟩, Or.inr ⟨rfl, ⟨_, rfl⟩, rfl⟩⟩

/-- **C8 counterexample.** The claim that `data` is present-but-null on
failure (and `error` present-but-null on success) is false: on a concrete
failing run the returned dict simply has no `data` key, and a success dict
has no `error` key. -/
theorem execute_with_retry_omits_fields_cex :
    execute_with_retry vExec wLlm 1 ("q".toList)
        = .ok (failureDict ("q".toList) ("boom".toList) 1,
               [⟨"q".toList, "boom".toList⟩]) ∧
      dictGet (@failureDict Nat ("q".toList) ("boom".toList) 1) ("data".toList)
        = none ∧
      dictGet (@successDict Nat ("q".toList) 0 1) ("error".toList) = none :=
  ⟨rfl, rfl, rfl⟩

/-- Witness for `execute_with_retry_result_fields` at a concrete failing run. -/
theorem execute_with_retry_result_fields_witness :
    (∃ s, dictGet (@failureDict Nat ("q".toList) ("boom".toList) 1) ("sql".toList)
        = some (.str s)) ∧
    (∃ n, dictGet (@failureDict Nat ("q".toList) ("boom".toList) 1) ("attempts".toList)
        = some (.nat n)) ∧
    ((dictGet (@failureDict Nat ("q".toList) ("boom".toList) 1) ("success".toList)
        = some (.bool true) ∧
      (∃ d, dictGet (@failureDict Nat ("q".toList) ("boom".toList) 1) ("data".toList)
        = some (.data d)) ∧
      dictGet (@failureDict Nat ("q".toList) ("boom".toList) 1) ("error".toList)
        = none) ∨
     (dictGet (@failureDict Nat ("q".toList) ("boom".toList) 1) ("success".toList)
        = some (.bool false) ∧
      (∃ e, dictGet (@failureDict Nat ("q".toList) ("boom".toList) 1) ("error".toList)
        = some (.str e)) ∧
      dictGet (@failureDict Nat ("q".toList) ("boom".toList) 1) ("data".toList)
        = none)) :=
  execute_with_retry_result_fields vExec wLlm 1 ("q".toList)
    (failureDict ("q".toList) ("boom".toList) 1) [⟨"q".toList, "boom".toList⟩] rfl

/-! ### The relevance gate: C4, C10 -/

/-- **C4.** When every token of the (lower-cased, non-word-split) question is
outside the schema-derived business vocabulary and no token fuzzy-matches any
table name at ratio ≥ 70, `_is_database_question` returns `False`, and `run`
returns the fixed rejection dict — `success = False`, `attempts = 0`, the
message listing example tables — without invoking the rest of the pipeline
(the result is the same for every possible generation/execution stage). -/
theorem relevance_gate_rejects (pr : List Char → List Char → Nat) (schema : Schema)
    (question : List Char)
    (h1 : ∀ w ∈ tokenize (question.map asciiLower),
      (dynamicKeywords schema).contains w = false)
    (h2 : ∀ w ∈ tokenize (question.map asciiLower),
      ∀ t ∈ schema.map (fun p => p.1), pr w t < 70) :
    isDatabaseQuestion pr schema question = false ∧
    ∀ (Data : Type) (pipelineRest : List Char → ResultDict Data),
      orchestratorRun pr schema pipelineRest question = rejectDict schema ∧
      dictGet (@rejectDict Data schema) ("success".toList) = some (.bool false) ∧
      dictGet (@rejectDict Data schema) ("attempts".toList) = some (.nat 0) ∧
      dictGet (@rejectDict Data schema) ("error".toList)
        = some (.str (rejectMessage schema)) := by
  have hgate : isDatabaseQuestion pr schema question = false := by
    rw [isDatabaseQuestion, List.any_eq_false]
    intro w hw hor
    rw [Bool.or_eq_true] at hor
    rcases hor with hA | hB
    · exact absurd hA (by rw [h1 w hw]; exact Bool.false_ne_true)
    · rw [List.any_eq_true] at hB
      obtain ⟨t, ht, hd⟩ := hB
      rw [decide_eq_true_eq] at hd
      exact absurd (h2 w hw t ht) (by omega)
  refine ⟨hgate, fun Data pipelineRest => ⟨?_, rfl, rfl, rfl⟩⟩
  rw [orchestratorRun, if_neg (by rw [hgate]; exact Bool.false_ne_true)]

/-- Concrete schema for the C4 witness. -/
def wSchema : Schema := [("orders".toList, [("order_id".toList, "BIGINT".toList)])]

/-- Witness for `relevance_gate_rejects`: with one table `orders(order_id)`
and a partial-ratio oracle that never matches, the question `"hello world"`
is rejected with `attempts = 0`. -/
theorem relevance_gate_rejects_witness :
    isDatabaseQuestion (fun _ _ => 0) wSchema ("hello world".toList) = false ∧
    ∀ (Data : Type) (pipelineRest : List Char → ResultDict Data),
      orchestratorRun (fun _ _ => 0) wSchema pipelineRest ("hello world".toList)
        = rejectDict wSchema ∧
      dictGet (@rejectDict Data wSchema) ("success".toList) = some (.bool false) ∧
      dictGet (@rejectDict Data wSchema) ("attempts".toList) = some (.nat 0) ∧
      dictGet (@rejectDict Data wSchema) ("error".toList)
        = some (.str (rejectMessage wSchema)) :=
  relevance_gate_rejects (fun _ _ => 0) wSchema ("hello world".toList)
    (by decide) (by decide)

/-- **C10.** With an empty schema the derived vocabulary and the table list
are both empty, so the relevance gate classifies every question as not
database-related and `run` returns the rejection dict with `attempts = 0` for
every input question. -/
theorem empty_schema_rejects_all (pr : List Char → List Char → Nat) (question : List Char) :
    isDatabaseQuestion pr ([] : Schema) question = false ∧
    ∀ (Data : Type) (pipelineRest : List Char → ResultDict Data),
      orchestratorRun pr ([] : Schema) pipelineRest question = rejectDict [] ∧
      dictGet (@rejectDict Data ([] : Schema)) ("success".toList)
        = some (.bool false) ∧
      dictGet (@rejectDict Data ([] : Schema)) ("attempts".toList)
        = some (.nat 0) := by
  have hgate : isDatabaseQuestion pr ([] : Schema) question = false := by
    rw [isDatabaseQuestion, List.any_eq_false]
    intro w hw
    simp [dynamicKeywords]
  refine ⟨hgate, fun Data pipelineRest => ⟨?_, rfl, rfl⟩⟩
  rw [orchestratorRun, if_neg (by rw [hgate]; exact Bool.false_ne_true)]

/-! ### Dict lemmas for the `best` accumulator -/

theorem key_unique {best : List ((List Char × List Char) × ColumnMatch)}
    (hnd : (best.map Prod.fst).Nodup) {p q : (List Char × List Char) × ColumnMatch}
    (hp : p ∈ best) (hq : q ∈ best) (hk : p.1 = q.1) : p = q := by
  induction best with
  | nil => cases hp
  | cons a t ih =>
    rw [List.map_cons, List.nodup_cons] at hnd
    rcases List.mem_cons.mp hp with rfl | hp' <;>
      rcases List.mem_cons.mp hq with rfl | hq'
    · rfl
    · exact absurd (hk ▸ List.mem_map_of_mem Prod.fst hq') hnd.1
    · exact absurd (hk ▸ List.mem_map_of_mem Prod.fst hp') hnd.1
    · exact ih hnd.2 hp' hq'

theorem keys_bestInsert (best : List ((List Char × List Char) × ColumnMatch))
    (k : List Char × List Char) (v : ColumnMatch) :
    (bestInsert best k v).map Prod.fst
      = if best.any (fun p => p.1 == k) then best.map Prod.fst
        else best.map Prod.fst ++ [k] := by
  rw [bestInsert]
  split
  · rw [List.map_map]
    apply List.map_congr_left
    intro p _
    by_cases h : p.1 == k
    · simp only [Function.comp_apply, if_pos h]
      exact (eq_of_beq h).symm
    · simp only [Function.comp_apply, if_neg h]
  · rw [List.map_append, List.map_cons, List.map_nil]

theorem nodup_keys_bestInsert {best : List ((List Char × List Char) × ColumnMatch)}
    (hnd : (best.map Prod.fst).Nodup) (k : List Char × List Char) (v : ColumnMatch) :
    ((bestInsert best k v).map Prod.fst).Nodup := by
  rw [keys_bestInsert]
  split
  · exact hnd
  next h =>
    rw [List.any_eq_true] at h
    push_neg at h
    rw [List.nodup_append]
    refine ⟨hnd, List.nodup_singleton k, ?_⟩
    intro x hx hx1
    rw [List.mem_singleton] at hx1
    obtain ⟨p, hp, rfl⟩ := List.mem_map.mp hx
    exact h p hp (by rw [hx1]; exact beq_self_eq_true k)

theorem mem_bestInsert {best : List ((List Char × List Char) × ColumnMatch)}
    {k : List Char × List Char} {v : ColumnMatch}
    {p : (List Char × List Char) × ColumnMatch} (h : p ∈ bestInsert best k v) :
    p = (k, v) ∨ (p ∈ best ∧ p.1 ≠ k) := by
  rw [bestInsert] at h
  split at h
  · obtain ⟨q, hq, hqp⟩ := List.mem_map.mp h
    by_cases hk : q.1 == k
    · rw [if_pos hk] at hqp
      exact Or.inl hqp.symm
    · rw [if_neg hk] at hqp
      exact Or.inr ⟨hqp ▸ hq, hqp ▸ fun he => hk (by rw [he]; exact beq_self_eq_true k)⟩
  next hany =>
    rcases List.mem_append.mp h with hmem | hmem
    · refine Or.inr ⟨hmem, fun he => ?_⟩
      rw [List.any_eq_true] at hany
      exact hany ⟨p, hmem, by rw [he]; exact beq_self_eq_true k⟩
    · exact Or.inl (List.mem_singleton.mp hmem)

theorem self_mem_bestInsert (best : List ((List Char × List Char) × ColumnMatch))
    (k : List Char × List Char) (v : ColumnMatch) : (k, v) ∈ bestInsert best k v := by
  rw [bestInsert]
  split
  next hany =>
    rw [List.any_eq_true] at hany
    obtain ⟨q, hq, hqk⟩ := hany
    exact List.mem_map.mpr ⟨q, hq, by rw [if_pos hqk]⟩
  · exact List.mem_append.mpr (Or.inr (List.mem_singleton.mpr rfl))

theorem mem_bestInsert_of_ne {best : List ((List Char × List Char) × ColumnMatch)}
    {k : List Char × List Char} {v : ColumnMatch}
    {q : (List Char × List Char) × ColumnMatch} (hq : q ∈ best) (hne : q.1 ≠ k) :
    q ∈ bestInsert best k v := by
  rw [bestInsert]
  split
  · exact List.mem_map.mpr ⟨q, hq, by rw [if_neg (by simpa using hne)]⟩
  · exact List.mem_append.mpr (Or.inl hq)

theorem bestFind_eq_none_iff {best : List ((List Char × List Char) × ColumnMatch)}
    {k : List Char × List Char} :
    bestFind best k = none ↔ ∀ p ∈ best, p.1 ≠ k := by
  rw [bestFind, Option.map_eq_none', List.find?_eq_none]
  constructor
  · intro h p hp he
    exact h p hp (by rw [he]; exact beq_self_eq_true k)
  · intro h p hp hbeq
    exact h p hp (eq_of_beq hbeq)

theorem bestFind_eq_some_mem {best : List ((List Char × List Char) × ColumnMatch)}
    {k : List Char × List Char} {m : ColumnMatch} (h : bestFind best k = some m) :
    (k, m) ∈ best := by
  induction best with
  | nil => simp [bestFind] at h
  | cons a t ih =>
    by_cases ha : (a.1 == k) = true
    · rw [bestFind, List.find?_cons_of_pos (p := fun p => p.1 == k) t ha, Option.map_some'] at h
      have hak : a.1 = k := by simpa using ha
      have : a = (k, m) := by
        cases a
        simp only at hak
        simp only [Option.some.injEq] at h
        rw [hak, h]
      exact this ▸ List.mem_cons_self a t
    · rw [bestFind, List.find?_cons_of_neg (p := fun p => p.1 == k) t (by simpa using ha)] at h
      exact List.mem_cons_of_mem a (ih h)

/-! ### The inner entry loop: one step -/

theorem processEntry_spec (R : Resolver) (active : List (List Char)) (kw : List Char)
    (best : List ((List Char × List Char) × ColumnMatch)) (i₀ : Nat) (e₀ : ColEntry)
    (hnd : (best.map Prod.fst).Nodup)
    (hthr : ∀ p ∈ best, (R.fuzzyThreshold : ℚ) ≤ p.2.score) :
    ((processEntry R active kw best (i₀, e₀)).map Prod.fst).Nodup ∧
    (∀ p ∈ processEntry R active kw best (i₀, e₀),
      (p ∈ best ∧ (entryKey e₀ = p.1 → active.contains e₀.table = true →
          combinedScore R kw i₀ e₀ ≤ p.2.score)) ∨
      (p.2.keyword = kw ∧ p.2.table = p.1.1 ∧ p.2.column = p.1.2 ∧
        entryKey e₀ = p.1 ∧ active.contains e₀.table = true ∧
        (R.fuzzyThreshold : ℚ) ≤ p.2.score ∧ combinedScore R kw i₀ e₀ = p.2.score ∧
        ((∀ q ∈ best, q.1 ≠ p.1) ∨ (∃ q ∈ best, q.1 = p.1 ∧ q.2.score < p.2.score)))) ∧
    (∀ k, (∀ p ∈ processEntry R active kw best (i₀, e₀), p.1 ≠ k) →
      (∀ q ∈ best, q.1 ≠ k) ∧
      (entryKey e₀ = k → active.contains e₀.table = true →
        combinedScore R kw i₀ e₀ < (R.fuzzyThreshold : ℚ))) ∧
    (∀ q ∈ best, ∃ p ∈ processEntry R active kw best (i₀, e₀),
      p.1 = q.1 ∧ q.2.score ≤ p.2.score) ∧
    (active.contains e₀.table = true →
      (R.fuzzyThreshold : ℚ) ≤ combinedScore R kw i₀ e₀ →
      ∃ p ∈ processEntry R active kw best (i₀, e₀),
        p.1 = entryKey e₀ ∧ combinedScore R kw i₀ e₀ ≤ p.2.score) := by
  by_cases hact : active.contains e₀.table = true
  · by_cases hsc : (R.fuzzyThreshold : ℚ) ≤ combinedScore R kw i₀ e₀
    · cases hf : bestFind best (e₀.table, e₀.column) with
      | none =>
        have habsent : ∀ q ∈ best, q.1 ≠ (e₀.table, e₀.column) :=
          bestFind_eq_none_iff.mp hf
        have heq : processEntry R active kw best (i₀, e₀)
            = bestInsert best (e₀.table, e₀.column)
                ⟨kw, e₀.column, e₀.table, combinedScore R kw i₀ e₀⟩ := by
          rw [processEntry]
          dsimp only
          rw [if_pos hact, if_pos hsc, hf]
        rw [heq]
        refine ⟨nodup_keys_bestInsert hnd _ _, ?_, ?_, ?_, ?_⟩
        · intro p hp
          rcases mem_bestInsert hp with rfl | ⟨hpb, hpne⟩
          · exact Or.inr ⟨rfl, rfl, rfl, rfl, hact, hsc, rfl, Or.inl habsent⟩
          · exact Or.inl ⟨hpb, fun hk _ => absurd hk.symm hpne⟩
        · intro k hk
          have hknew : (e₀.table, e₀.column) ≠ k :=
            hk _ (self_mem_bestInsert best _ _)
          refine ⟨?_, fun hek _ => absurd hek hknew⟩
          intro q hq
          by_cases hq0 : q.1 = (e₀.table, e₀.column)
          · exact hq0 ▸ hknew
          · exact hk q (mem_bestInsert_of_ne hq hq0)
        · intro q hq
          exact ⟨q, mem_bestInsert_of_ne hq (habsent q hq), rfl, le_refl _⟩
        · intro _ _
          exact ⟨_, self_mem_bestInsert best _ _, rfl, le_refl _⟩
      | some old =>
        have hmemold : ((e₀.table, e₀.column), old) ∈ best := bestFind_eq_some_mem hf
        by_cases hlt : old.score < combinedScore R kw i₀ e₀
        · have heq : processEntry R active kw best (i₀, e₀)
              = bestInsert best (e₀.table, e₀.column)
                  ⟨kw, e₀.column, e₀.table, combinedScore R kw i₀ e₀⟩ := by
            rw [processEntry]
            dsimp only
            rw [if_pos hact, if_pos hsc, hf]
            dsimp only
            rw [if_pos hlt]
          rw [heq]
          refine ⟨nodup_keys_bestInsert hnd _ _, ?_, ?_, ?_, ?_⟩
          · intro p hp
            rcases mem_bestInsert hp with rfl | ⟨hpb, hpne⟩
            · exact Or.inr ⟨rfl, rfl, rfl, rfl, hact, hsc, rfl,
                Or.inr ⟨_, hmemold, rfl, hlt⟩⟩
            · exact Or.inl ⟨hpb, fun hk _ => absurd hk.symm hpne⟩
          · intro k hk
            have hknew : (e₀.table, e₀.column) ≠ k :=
              hk _ (self_mem_bestInsert best _ _)
            refine ⟨?_, fun hek _ => absurd hek hknew⟩
            intro q hq
            by_cases hq0 : q.1 = (e₀.table, e₀.column)
            · exact hq0 ▸ hknew
            · exact hk q (mem_bestInsert_of_ne hq hq0)
          · intro q hq
            by_cases hq0 : q.1 = (e₀.table, e₀.column)
            · have : q = ((e₀.table, e₀.column), old) := key_unique hnd hq hmemold hq0
              refine ⟨_, self_mem_bestInsert best _ _, hq0.symm, ?_⟩
              rw [this]
              exact le_of_lt hlt
            · exact ⟨q, mem_bestInsert_of_ne hq hq0, rfl, le_refl _⟩
          · intro _ _
            exact ⟨_, self_mem_bestInsert best _ _, rfl, le_refl _⟩
        · have hle : combinedScore R kw i₀ e₀ ≤ old.score := not_lt.mp hlt
          have heq : processEntry R active kw best (i₀, e₀) = best := by
            rw [processEntry]
            dsimp only
            rw [if_pos hact, if_pos hsc, hf]
            dsimp only
            rw [if_neg hlt]
          rw [heq]
          refine ⟨hnd, ?_, ?_, ?_, ?_⟩
          · intro p hp
            refine Or.inl ⟨hp, fun hk _ => ?_⟩
            have : p = ((e₀.table, e₀.column), old) := key_unique hnd hp hmemold hk.symm
            rw [this]
            exact hle
          · intro k hk
            exact ⟨hk, fun hek _ => absurd hek (hk _ hmemold)⟩
          · intro q hq
            exact ⟨q, hq, rfl, le_refl _⟩
          · intro _ _
            exact ⟨_, hmemold, rfl, hle⟩
    · have heq : processEntry R active kw best (i₀, e₀) = best := by
        rw [processEntry]
        dsimp only
        rw [if_pos hact, if_neg hsc]
      rw [heq]
      refine ⟨hnd, ?_, ?_, ?_, ?_⟩
      · intro p hp
        exact Or.inl ⟨hp, fun _ _ => le_of_lt (lt_of_lt_of_le (not_le.mp hsc) (hthr p hp))⟩
      · intro k hk
        exact ⟨hk, fun _ _ => not_le.mp hsc⟩
      · intro q hq
        exact ⟨q, hq, rfl, le_refl _⟩
      · intro _ hs
        exact absurd hs hsc
  · have heq : processEntry R active kw best (i₀, e₀) = best := by
      rw [processEntry]
      dsimp only
      rw [if_neg hact]
    rw [heq]
    refine ⟨hnd, ?_, ?_, ?_, ?_⟩
    · intro p hp
      exact Or.inl ⟨hp, fun _ hc => absurd hc hact⟩
    · intro k hk
      exact ⟨hk, fun _ hc => absurd hc hact⟩
    · intro q hq
      exact ⟨q, hq, rfl, le_refl _⟩
    · intro hc _
      exact absurd hc hact

/-! ### The inner entry loop: full fold -/

theorem foldEntries_spec (R : Resolver) (active : List (List Char)) (kw : List Char) :
    ∀ (L : List (Nat × ColEntry)) (best : List ((List Char × List Char) × ColumnMatch)),
      (best.map Prod.fst).Nodup →
      (∀ p ∈ best, (R.fuzzyThreshold : ℚ) ≤ p.2.score) →
      (((L.foldl (processEntry R active kw) best).map Prod.fst).Nodup ∧
        (∀ p ∈ L.foldl (processEntry R active kw) best,
          (R.fuzzyThreshold : ℚ) ≤ p.2.score)) ∧
      (∀ p ∈ L.foldl (processEntry R active kw) best,
        (p ∈ best ∧ boundOn R active kw L p.1 p.2.score) ∨
        (p.2.keyword = kw ∧ p.2.table = p.1.1 ∧ p.2.column = p.1.2 ∧
          active.contains p.2.table = true ∧ (R.fuzzyThreshold : ℚ) ≤ p.2.score ∧
          (∃ i e, (i, e) ∈ L ∧ entryKey e = p.1 ∧ active.contains e.table = true ∧
            combinedScore R kw i e = p.2.score) ∧
          boundOn R active kw L p.1 p.2.score ∧
          ((∀ q ∈ best, q.1 ≠ p.1) ∨ (∃ q ∈ best, q.1 = p.1 ∧ q.2.score < p.2.score)))) ∧
      (∀ k, (∀ p ∈ L.foldl (processEntry R active kw) best, p.1 ≠ k) →
        (∀ q ∈ best, q.1 ≠ k) ∧ belowThrOn R active kw L k) ∧
      (∀ q ∈ best, ∃ p ∈ L.foldl (processEntry R active kw) best,
        p.1 = q.1 ∧ q.2.score ≤ p.2.score) := by
  intro L
  induction L with
  | nil =>
    intro best hnd hthr
    refine ⟨⟨hnd, hthr⟩, ?_, ?_, ?_⟩
    · intro p hp
      exact Or.inl ⟨hp, fun i e hmem => absurd hmem (List.not_mem_nil (i, e))⟩
    · intro k hk
      exact ⟨hk, fun i e hmem => absurd hmem (List.not_mem_nil (i, e))⟩
    · intro q hq
      exact ⟨q, hq, rfl, le_refl _⟩
  | cons he L' ih =>
    intro best hnd hthr
    obtain ⟨i₀, e₀⟩ := he
    obtain ⟨s1, s2, s3, s4, s5⟩ := processEntry_spec R active kw best i₀ e₀ hnd hthr
    have hthr₁ : ∀ p ∈ processEntry R active kw best (i₀, e₀),
        (R.fuzzyThreshold : ℚ) ≤ p.2.score := by
      intro p hp
      rcases s2 p hp with ⟨hpb, -⟩ | h
      · exact hthr p hpb
      · exact h.2.2.2.2.2.1
    obtain ⟨⟨i1nd, i1thr⟩, i2, i3, i4⟩ := ih (processEntry R active kw best (i₀, e₀)) s1 hthr₁
    rw [List.foldl_cons]
    refine ⟨⟨i1nd, i1thr⟩, ?_, ?_, ?_⟩
    · intro p hp
      rcases i2 p hp with ⟨hpb1, hbound'⟩ | ⟨hkw, htab, hcol, hactp, hthrp,
          ⟨i, e, hmem, hkey, hacte, hcombeq⟩, hbound', habs'⟩
      · rcases s2 p hpb1 with ⟨hpb0, hcond⟩ |
            ⟨hkw, htab, hcol, hkey₀, hact₀, hthrp, hcomb₀, habs₀⟩
        · refine Or.inl ⟨hpb0, ?_⟩
          intro i e hmem hkey hacte
          rcases List.mem_cons.mp hmem with heq | hmem'
          · injection heq with h1 h2
            subst h1
            subst h2
            exact hcond hkey hacte
          · exact hbound' i e hmem' hkey hacte
        · refine Or.inr ⟨hkw, htab, hcol, ?_, hthrp,
            ⟨i₀, e₀, List.mem_cons_self _ _, hkey₀, hact₀, hcomb₀⟩, ?_, habs₀⟩
          · rw [htab, ← hkey₀]
            exact hact₀
          · intro i e hmem hkey hacte
            rcases List.mem_cons.mp hmem with heq | hmem'
            · injection heq with h1 h2
              subst h1
              subst h2
              exact le_of_eq hcomb₀
            · exact hbound' i e hmem' hkey hacte
      · refine Or.inr ⟨hkw, htab, hcol, hactp, hthrp,
          ⟨i, e, List.mem_cons_of_mem _ hmem, hkey, hacte, hcombeq⟩, ?_, ?_⟩
        · intro i' e' hmem' hkey' hacte'
          rcases List.mem_cons.mp hmem' with heq | hmem''
          · injection heq with h1 h2
            rw [h2] at hkey' hacte'
            rw [h1, h2]
            by_cases hc : (R.fuzzyThreshold : ℚ) ≤ combinedScore R kw i₀ e₀
            · obtain ⟨q₁, hq₁, hq₁k, hq₁le⟩ := s5 hacte' hc
              obtain ⟨p', hp', hp'k, hp'le⟩ := i4 q₁ hq₁
              have hpp : p' = p := by
                refine key_unique i1nd hp' hp ?_
                rw [hp'k, hq₁k, hkey']
              calc combinedScore R kw i₀ e₀ ≤ q₁.2.score := hq₁le
                _ ≤ p'.2.score := hp'le
                _ = p.2.score := by rw [hpp]
            · exact le_of_lt (lt_of_lt_of_le (not_le.mp hc) hthrp)
          · exact hbound' i' e' hmem'' hkey' hacte'
        · rcases habs' with habs1 | ⟨q₁, hq₁, hq₁k, hq₁lt⟩
          · exact Or.inl (s3 p.1 habs1).1
          · rcases s2 q₁ hq₁ with ⟨hq₁b0, -⟩ | ⟨-, -, -, -, -, -, -, habs₀⟩
            · exact Or.inr ⟨q₁, hq₁b0, hq₁k, hq₁lt⟩
            · rcases habs₀ with habs0 | ⟨q₀, hq₀, hq₀k, hq₀lt⟩
              · refine Or.inl ?_
                intro q hq
                rw [← hq₁k]
                exact habs0 q hq
              · exact Or.inr ⟨q₀, hq₀, by rw [hq₀k, hq₁k], lt_trans hq₀lt hq₁lt⟩
    · intro k hk
      obtain ⟨habs1, hbelow'⟩ := i3 k hk
      obtain ⟨habs0, hheadlt⟩ := s3 k habs1
      refine ⟨habs0, ?_⟩
      intro i e hmem hkey hacte
      rcases List.mem_cons.mp hmem with heq | hmem'
      · injection heq with h1 h2
        subst h1
        subst h2
        exact hheadlt hkey hacte
      · exact hbelow' i e hmem' hkey hacte
    · intro q hq
      obtain ⟨q₁, hq₁, hq₁k, hq₁le⟩ := s4 q hq
      obtain ⟨p, hp, hpk, hple⟩ := i4 q₁ hq₁
      exact ⟨p, hp, by rw [hpk, hq₁k], le_trans hq₁le hple⟩

/-! ### The outer keyword loop -/

theorem processKeyword_inv (R : Resolver) (active : List (List Char))
    (kws₀ : List (List Char)) (kw : List Char)
    (best : List ((List Char × List Char) × ColumnMatch))
    (hinv : bestInv R active kws₀ best) :
    bestInv R active (kws₀ ++ [kw]) (processKeyword R active best kw) := by
  obtain ⟨hnd, hmem, hcomp⟩ := hinv
  have hthr : ∀ p ∈ best, (R.fuzzyThreshold : ℚ) ≤ p.2.score :=
    fun p hp => (hmem p hp).1.2.2.2.2
  obtain ⟨⟨fnd, fthr⟩, f2, f3, f4⟩ :=
    foldEntries_spec R active kw R.allColumns.enum best hnd hthr
  rw [processKeyword]
  refine ⟨fnd, ?_, ?_⟩
  · intro p hp
    rcases f2 p hp with ⟨hpb, hbound⟩ |
        ⟨hkw, htab, hcol, hactp, hthrp, hwit, hbound, habs⟩
    · obtain ⟨hwf, hballs, hfirst⟩ := hmem p hpb
      refine ⟨hwf, ?_, ?_⟩
      · intro kw' hkw'
        rcases List.mem_append.mp hkw' with h | h
        · exact hballs kw' h
        · rw [List.mem_singleton.mp h]
          exact hbound
      · obtain ⟨pre, post, hkws, hwit₀, hpre⟩ := hfirst
        exact ⟨pre, post ++ [kw], by rw [hkws]; simp, hwit₀, hpre⟩
    · refine ⟨⟨htab, hcol, hactp, ?_, hthrp⟩, ?_, ?_⟩
      · obtain ⟨i, e, hie, hkey, -, -⟩ := hwit
        exact ⟨i, e, hie, hkey⟩
      · intro kw' hkw'
        rcases List.mem_append.mp hkw' with h | h
        · rcases habs with habs0 | ⟨q, hq, hqk, hqlt⟩
          · intro i e hm hk ha
            exact le_of_lt (lt_of_lt_of_le (hcomp p.1 habs0 kw' h i e hm hk ha) hthrp)
          · intro i e hm hk ha
            refine le_of_lt (lt_of_le_of_lt ((hmem q hq).2.1 kw' h i e hm ?_ ha) hqlt)
            rw [hk]
            exact hqk.symm
        · rw [List.mem_singleton.mp h]
          exact hbound
      · refine ⟨kws₀, [], by rw [hkw], hkw ▸ hwit, ?_⟩
        intro kw' hkw' i e hm hk ha
        rcases habs with habs0 | ⟨q, hq, hqk, hqlt⟩
        · exact lt_of_lt_of_le (hcomp p.1 habs0 kw' hkw' i e hm hk ha) hthrp
        · refine lt_of_le_of_lt ((hmem q hq).2.1 kw' hkw' i e hm ?_ ha) hqlt
          rw [hk]
          exact hqk.symm
  · intro k hkabs kw' hkw'
    obtain ⟨habs0, hbelow⟩ := f3 k hkabs
    rcases List.mem_append.mp hkw' with h | h
    · exact hcomp k habs0 kw' h
    · rw [List.mem_singleton.mp h]
      exact hbelow

theorem computeBest_inv (R : Resolver) (active : List (List Char)) :
    ∀ (kws kws₀ : List (List Char)) (best : List ((List Char × List Char) × ColumnMatch)),
      bestInv R active kws₀ best →
      bestInv R active (kws₀ ++ kws) (kws.foldl (processKeyword R active) best) := by
  intro kws
  induction kws with
  | nil =>
    intro kws₀ best h
    simpa using h
  | cons kw kws' ih =>
    intro kws₀ best h
    rw [List.foldl_cons]
    have h2 := ih (kws₀ ++ [kw]) _ (processKeyword_inv R active kws₀ kw best h)
    rwa [List.append_assoc] at h2

theorem computeBest_spec (R : Resolver) (active : List (List Char))
    (kws : List (List Char)) : bestInv R active kws (computeBest R active kws) := by
  have h0 : bestInv R active [] [] :=
    ⟨List.nodup_nil, fun p hp => absurd hp (List.not_mem_nil p),
     fun k _ kw hkw => absurd hkw (List.not_mem_nil kw)⟩
  have h := computeBest_inv R active kws [] [] h0
  simpa [computeBest] using h

/-! ### C2, C5, C9 — `enrich` -/

theorem enrich_matches_mem (R : Resolver)
    (hints : List Char → List Char → Option (List (List Char)))
    (question : List Char) (schema : Schema) {m : ColumnMatch}
    (hm : m ∈ (enrich R hints question schema).column_matches) :
    ∃ p ∈ computeBest R (schema.map (fun p => p.1)) (extractKeywords question),
      p.2 = m ∧ p.1 = (m.table, m.column) := by
  simp only [enrich] at hm
  obtain ⟨p, hp, rfl⟩ := List.mem_map.mp hm
  have hwf := ((computeBest_spec R (schema.map (fun p => p.1))
    (extractKeywords question)).2.1 p hp).1
  exact ⟨p, hp, rfl, Prod.ext hwf.1.symm hwf.2.1.symm⟩

/-- **C2.** Every retained column match of `enrich` has score at least the
threshold; there is at most one match per `(table, column)` pair; and each
retained match dominates the score of every keyword on its pair, with the
recorded keyword being the first (in extraction order) to attain that score —
all strictly earlier keywords score strictly lower on the pair. -/
theorem enrich_matches_spec (R : Resolver)
    (hints : List Char → List Char → Option (List (List Char)))
    (question : List Char) (schema : Schema) :
    (∀ m ∈ (enrich R hints question schema).column_matches,
      (R.fuzzyThreshold : ℚ) ≤ m.score) ∧
    ((enrich R hints question schema).column_matches.map
      (fun m => (m.table, m.column))).Nodup ∧
    (∀ m ∈ (enrich R hints question schema).column_matches,
      (∀ kw ∈ extractKeywords question,
        boundOn R (schema.map (fun p => p.1)) kw R.allColumns.enum
          (m.table, m.column) m.score) ∧
      (∃ pre post, extractKeywords question = pre ++ m.keyword :: post ∧
        (∃ i e, (i, e) ∈ R.allColumns.enum ∧ e.table = m.table ∧ e.column = m.column ∧
          combinedScore R m.keyword i e = m.score) ∧
        ∀ kw' ∈ pre, strictBoundOn R (schema.map (fun p => p.1)) kw' R.allColumns.enum
          (m.table, m.column) m.score)) := by
  have hspec := computeBest_spec R (schema.map (fun p => p.1)) (extractKeywords question)
  refine ⟨?_, ?_, ?_⟩
  · intro m hm
    obtain ⟨p, hp, hpm, -⟩ := enrich_matches_mem R hints question schema hm
    exact hpm ▸ (hspec.2.1 p hp).1.2.2.2.2
  · have hmaps : (enrich R hints question schema).column_matches.map
        (fun m => (m.table, m.column))
        = (computeBest R (schema.map (fun p => p.1))
            (extractKeywords question)).map Prod.fst := by
      simp only [enrich]
      rw [List.map_map]
      apply List.map_congr_left
      intro p hp
      have hwf := (hspec.2.1 p hp).1
      show (p.2.table, p.2.column) = p.1
      rw [hwf.1, hwf.2.1]
    rw [hmaps]
    exact hspec.1
  · intro m hm
    obtain ⟨p, hp, hpm, hpk⟩ := enrich_matches_mem R hints question schema hm
    obtain ⟨hwf, hball, pre, post, hkws, ⟨i, e, hie, hkey, hacte, hcomb⟩, hpre⟩ :=
      hspec.2.1 p hp
    constructor
    · intro kw hkw
      rw [← hpk, ← hpm]
      exact hball kw hkw
    · refine ⟨pre, post, by rw [← hpm]; exact hkws, ?_, ?_⟩
      · refine ⟨i, e, hie, ?_, ?_, ?_⟩
        · have h1 : e.table = p.1.1 := congrArg Prod.fst hkey
          rw [h1, hpk]
        · have h2 : e.column = p.1.2 := congrArg Prod.snd hkey
          rw [h2, hpk]
        · rw [← hpm]
          exact hcomb
      · intro kw' hkw'
        rw [← hpk, ← hpm]
        exact hpre kw' hkw'

/-- Witness for `enrich_matches_spec` on the concrete resolver `rcW`: the
keyword `customer` matches `orders.customer_id` with score 90 ≥ 70. -/
theorem enrich_matches_spec_witness :
    mW ∈ (enrich rcW hintsW qW scW).column_matches ∧
      (rcW.fuzzyThreshold : ℚ) ≤ mW.score :=
  ⟨by decide, (enrich_matches_spec rcW hintsW qW scW).1 mW (by decide)⟩

/-- **C5.** Every retained match concerns a table of the caller-supplied
schema (and only such pairs are ever scored), and its retained score is
exactly `max(lexical, semantic)` for its keyword when semantic mode is
active, and the lexical `partial_ratio` score alone when it is not. -/
theorem enrich_score_combination (R : Resolver)
    (hints : List Char → List Char → Option (List (List Char)))
    (question : List Char) (schema : Schema) :
    ∀ m ∈ (enrich R hints question schema).column_matches,
      (schema.map (fun p => p.1)).contains m.table = true ∧
      ∃ kw, kw ∈ extractKeywords question ∧
        ∃ i e, (i, e) ∈ R.allColumns.enum ∧ e.table = m.table ∧ e.column = m.column ∧
          m.score = (match R.sem with
            | some f => max ((R.lex kw (e.column.map asciiLower) : Nat) : ℚ) (f kw i)
            | none => ((R.lex kw (e.column.map asciiLower) : Nat) : ℚ)) := by
  intro m hm
  have hspec := computeBest_spec R (schema.map (fun p => p.1)) (extractKeywords question)
  obtain ⟨p, hp, hpm, hpk⟩ := enrich_matches_mem R hints question schema hm
  obtain ⟨hwf, hball, pre, post, hkws, ⟨i, e, hie, hkey, hacte, hcomb⟩, hpre⟩ :=
    hspec.2.1 p hp
  constructor
  · rw [← hpm]
    exact hwf.2.2.1
  · refine ⟨p.2.keyword, ?_, i, e, hie, ?_, ?_, ?_⟩
    · rw [hkws]
      exact List.mem_append.mpr (Or.inr (List.mem_cons_self _ _))
    · have h1 : e.table = p.1.1 := congrArg Prod.fst hkey
      rw [h1, hpk]
    · have h2 : e.column = p.1.2 := congrArg Prod.snd hkey
      rw [h2, hpk]
    · rw [← hpm, ← hcomb]
      rfl

/-- Witness for `enrich_score_combination` at the concrete resolver `rcW`. -/
theorem enrich_score_combination_witness :
    mW ∈ (enrich rcW hintsW qW scW).column_matches ∧
      (scW.map (fun p => p.1)).contains mW.table = true :=
  ⟨by decide, ((enrich_score_combination rcW hintsW qW scW) mW (by decide)).1⟩

/-- **C9.** `enrich` is a pure function of its arguments (the embedding is
total and effect-free, mirroring that the Python code only reads the schema
dict), and the `original_schema` field of the returned context is exactly the
caller's schema argument. -/
theorem enrich_preserves_schema (R : Resolver)
    (hints : List Char → List Char → Option (List (List Char)))
    (question : List Char) (schema : Schema) :
    (enrich R hints question schema).original_schema = schema := rfl
